import Mathlib

/-!
Verification development for the chunked-upload system
(client engine `FileUploader` in `src/frontend/src/utils/Uploader.js` region of
the frontend sources, server controller `uploadController` in the backend
sources).  The client engine is embedded as an executable transition system
over `Engine`; the server handlers as pure functions over `SState`.
-/

namespace UploadModel

/-! ## Client upload engine (FileUploader) -/

/-- Per-chunk status, from the client code:
`PENDING → UPLOADING → (SUCCESS | ERROR_RETRY | ERROR_FATAL)`. -/
inductive CStatus
  | pending
  | uploading
  | success
  | errorRetry
  | errorFatal
deriving DecidableEq, Repr

/-- One entry of `this.chunks`: `{ index, start, end, status, attempts }`.
The JS field `end` is called `stop` here (`end` is a Lean keyword). -/
structure Chunk where
  index : Nat
  start : Nat
  stop : Nat
  status : CStatus
  attempts : Nat
deriving DecidableEq, Repr

/-- Engine status, from the client code:
`IDLE, UPLOADING, PAUSED, COMPLETED, FAILED` plus the transient
`PROCESSING` set by `_finalize`. -/
inductive EStatus
  | idle
  | uploadingE
  | paused
  | processing
  | completed
  | failed
deriving DecidableEq, Repr

/-- Ghost history of scheduling decisions: every dispatch of a chunk PUT
(`_uploadChunk`'s synchronous prefix) and every failure handling
(with the post-increment attempt counter `k`), each with the time at which
the handler ran.  Newest entry first. -/
inductive LogEntry
  | dispatchE (i t : Nat)
  | failE (i k t : Nat)
deriving DecidableEq, Repr

/-- The mutable state of a `FileUploader` instance, plus the environment
facts needed to drive executions: the multiset of in-flight PUT requests
(`inflight`, one entry per outstanding `axios.put`), the pending
`setTimeout` backoff timers (`timers`, chunk index and absolute fire time in
ms), the current time `now`, and the ghost `log`. -/
structure Engine where
  fileSize : Nat
  chunks : List Chunk
  activeUploads : Int
  status : EStatus
  uploadedBytes : Nat
  inflight : List Nat
  timers : List (Nat × Nat)
  now : Nat
  log : List LogEntry
deriving DecidableEq, Repr

/-- `const CHUNK_SIZE = 1024 * 1024 * 5` (5 MiB). -/
def CHUNK_SIZE : Nat := 1024 * 1024 * 5

/-- `const MAX_CONCURRENCY = 3`. -/
def MAX_CONCURRENCY : Int := 3

/-- `const MAX_RETRIES = 3`. -/
def MAX_RETRIES : Nat := 3

/-- `this.totalChunks = Math.ceil(file.size / this.chunkSize)` from the
`FileUploader` constructor, as exact natural-number ceiling division. -/
def totalChunksOf (fileSize : Nat) : Nat :=
  (fileSize + CHUNK_SIZE - 1) / CHUNK_SIZE

/-- One entry of the chunk table built in `start()`:
`start = i * chunkSize`, `end = Math.min(start + chunkSize, file.size)`,
status `PENDING`, `attempts: 0` (no resume data: `uploadedChunks` empty). -/
def mkChunk (fileSize i : Nat) : Chunk :=
  { index := i
    start := i * CHUNK_SIZE
    stop := min (i * CHUNK_SIZE + CHUNK_SIZE) fileSize
    status := .pending
    attempts := 0 }

/-- The chunk table built by `start()` for a fresh upload. -/
def initChunks (fileSize : Nat) : List Chunk :=
  (List.range (totalChunksOf fileSize)).map (mkChunk fileSize)

/-- The filter used by `_processQueue`:
`c.status === 'PENDING' || c.status === 'ERROR_RETRY'`. -/
def isPendingLike (c : Chunk) : Bool :=
  c.status = .pending || c.status = .errorRetry

/-- Update the chunk object whose `index` field is `i` (the JS code mutates
the chunk object in place; chunk objects are identified by their index). -/
def modifyAt (cs : List Chunk) (i : Nat) (f : Chunk → Chunk) : List Chunk :=
  cs.map fun c => if c.index = i then f c else c

/-- Look up the chunk object with index `i`. -/
def findChunk (cs : List Chunk) (i : Nat) : Option Chunk :=
  cs.find? fun c => c.index = i

/-- The synchronous prefix of `_uploadChunk`: increment `activeUploads`,
mark the chunk `UPLOADING`, and issue the PUT (recorded in `inflight` and in
the ghost log). -/
def dispatch (e : Engine) (i : Nat) : Engine :=
  { e with
      activeUploads := e.activeUploads + 1
      chunks := modifyAt e.chunks i fun c => { c with status := .uploading }
      inflight := i :: e.inflight
      log := .dispatchE i e.now :: e.log }

/-- The `while (this.activeUploads < MAX_CONCURRENCY && pending.length > 0)`
loop of `_processQueue`, over the snapshot list of pending chunk indices. -/
def fillSlots : Engine → List Nat → Engine
  | e, [] => e
  | e, i :: rest =>
      if e.activeUploads < MAX_CONCURRENCY then fillSlots (dispatch e i) rest
      else e

/-- Indices of the `_processQueue` pending snapshot
(`this.chunks.filter(c => c.status === 'PENDING' || c.status === 'ERROR_RETRY')`,
in array order, i.e. ascending chunk index). -/
def pendingIdxs (e : Engine) : List Nat :=
  (e.chunks.filter isPendingLike).map (·.index)

/-- Number of chunks currently in `UPLOADING` state. -/
def countUploading (e : Engine) : Nat :=
  (e.chunks.filter fun c => c.status = .uploading).length

/-- `_processQueue`: no-op unless the engine is `UPLOADING`; if no chunk is
pending or uploading, `_finalize()` is entered (it synchronously sets
status `PROCESSING` and posts the finalize request); otherwise fill the free
concurrency slots from the pending snapshot. -/
def processQueue (e : Engine) : Engine :=
  if e.status = .uploadingE then
    if pendingIdxs e = [] ∧ countUploading e = 0 then
      { e with status := .processing }
    else fillSlots e (pendingIdxs e)
  else e

/-- The engine state right after a successful `start()` handshake on a fresh
upload (no already-uploaded chunks): status `UPLOADING`, chunk table built,
then `_processQueue()`. -/
def startEngine (fileSize : Nat) : Engine :=
  processQueue
    { fileSize := fileSize
      chunks := initChunks fileSize
      activeUploads := 0
      status := .uploadingE
      uploadedBytes := 0
      inflight := []
      timers := []
      now := 0
      log := [] }

/-- Events the environment can deliver after `start()`: resolution of an
in-flight chunk PUT (success or failure), firing of a scheduled backoff
timer, and the user's `pause()` / `resume()`.  (This is exactly the event
alphabet of the client claims; the finalize round-trip only changes the
engine status and dispatches nothing.) -/
inductive Ev
  | successE (i : Nat)
  | failureE (i : Nat)
  | timerE (i tf : Nat)
  | pauseE
  | resumeE
deriving DecidableEq, Repr

/-- A timed event. -/
structure TEv where
  t : Nat
  ev : Ev
deriving DecidableEq, Repr

/-- Recognize failure events (used to state which executions are
failure-free). -/
def isFailureEv : Ev → Bool
  | .failureE _ => true
  | _ => false

/-- One event-handler execution at current time `t`, straight from the JS
handlers (`.then` branch, `catch` branch, `setTimeout` callback, `pause`,
`resume`), on an engine whose clock is already advanced to `t`.  `none`
means the event is not enabled (no such in-flight request or timer). -/
def stepEv (e1 : Engine) (t : Nat) : Ev → Option Engine
  | .successE i =>
      if i ∈ e1.inflight then
        match findChunk e1.chunks i with
        | none => none
        | some c =>
            some (processQueue
              { e1 with
                  chunks := modifyAt e1.chunks i fun c => { c with status := .success }
                  uploadedBytes := e1.uploadedBytes + (c.stop - c.start)
                  activeUploads := e1.activeUploads - 1
                  inflight := e1.inflight.erase i })
      else none
  | .failureE i =>
      if i ∈ e1.inflight then
        match findChunk e1.chunks i with
        | none => none
        | some c =>
            if c.attempts + 1 ≤ MAX_RETRIES then
              -- chunk.status = 'ERROR_RETRY'; setTimeout(..., 2^k * 1000);
              -- this.activeUploads--; this._processQueue();
              some (processQueue
                { e1 with
                    chunks := modifyAt e1.chunks i fun c =>
                      { c with attempts := c.attempts + 1, status := .errorRetry }
                    activeUploads := e1.activeUploads - 1
                    inflight := e1.inflight.erase i
                    timers := (i, t + 2 ^ (c.attempts + 1) * 1000) :: e1.timers
                    log := .failE i (c.attempts + 1) t :: e1.log })
            else
              -- chunk.status = 'ERROR_FATAL'; this.status = 'FAILED';
              some
                { e1 with
                    chunks := modifyAt e1.chunks i fun c =>
                      { c with attempts := c.attempts + 1, status := .errorFatal }
                    status := .failed
                    activeUploads := e1.activeUploads - 1
                    inflight := e1.inflight.erase i }
      else none
  | .timerE i tf =>
      if (i, tf) ∈ e1.timers ∧ tf ≤ t then
        if e1.status = .uploadingE then
          -- this.activeUploads--; chunk.status = 'PENDING'; this._processQueue();
          some (processQueue
            { e1 with
                timers := e1.timers.erase (i, tf)
                activeUploads := e1.activeUploads - 1
                chunks := modifyAt e1.chunks i fun c => { c with status := .pending } })
        else some { e1 with timers := e1.timers.erase (i, tf) }
      else none
  | .pauseE => some { e1 with status := .paused }
  | .resumeE =>
      if e1.status = .paused ∨ e1.status = .failed then
        some (processQueue { e1 with status := .uploadingE })
      else some e1

/-- One timed event: refuse a clock regression, advance the clock, and run
the handler. -/
def step (e : Engine) (te : TEv) : Option Engine :=
  if te.t < e.now then none
  else stepEv { e with now := te.t } te.t te.ev

/-- Run a list of timed events from a state. -/
def run (e : Engine) : List TEv → Option Engine
  | [] => some e
  | te :: rest =>
      match step e te with
      | some e' => run e' rest
      | none => none

/-! ## Server chunk store and finalizer (uploadController) -/

/-- Upload status on the server:
`UPLOADING, PROCESSING, COMPLETED, FAILED`. -/
inductive SStatus
  | uploadingS
  | processingS
  | completedS
  | failedS
deriving DecidableEq, Repr

/-- The Upload record (`uploads` table row) for one upload id. -/
structure SUpload where
  totalSize : Nat
  totalChunks : Nat
  status : SStatus
  finalHash : Option String
deriving DecidableEq, Repr

/-- Server-side state for one upload id: the Upload row (`none` = no such
row, the 404 case), the set of Chunk rows (`chunk_index` values whose status
is `UPLOADED`; the table's primary key keeps them distinct), and the blob
file `{uploadId}.bin` (`none` = file missing). -/
structure SState where
  upload : Option SUpload
  chunkSet : List Nat
  blob : Option (List Nat)
deriving DecidableEq, Repr

/-- An HTTP JSON response: status code plus the JSON fields the controller
actually emits (absent fields are `none`). -/
structure SResp where
  code : Nat
  success : Option Bool := none
  statusField : Option String := none
  message : Option String := none
  errorMsg : Option String := none
  hash : Option String := none
  serverHashField : Option String := none
  clientHashField : Option String := none
  zipContent : Option (List String) := none
deriving DecidableEq, Repr

/-! ### JS `parseInt` (used on the `X-Chunk-Offset` header) -/

/-- Numeric value of a hexadecimal digit character. -/
def hexVal? (c : Char) : Option Nat :=
  if '0' ≤ c ∧ c ≤ '9' then some (c.toNat - '0'.toNat)
  else if 'a' ≤ c ∧ c ≤ 'f' then some (c.toNat - 'a'.toNat + 10)
  else if 'A' ≤ c ∧ c ≤ 'F' then some (c.toNat - 'A'.toNat + 10)
  else none

/-- Value of a digit character in the given radix, if valid. -/
def digitVal? (radix : Nat) (c : Char) : Option Nat :=
  match hexVal? c with
  | some v => if v < radix then some v else none
  | none => none

/-- Longest prefix of valid digits (JS `parseInt` ignores everything from
the first invalid character on). -/
def takeDigits (radix : Nat) : List Char → List Nat
  | [] => []
  | c :: rest =>
      match digitVal? radix c with
      | some v => v :: takeDigits radix rest
      | none => []

/-- JS whitespace accepted by `parseInt` before the number. -/
def jsWhitespace (c : Char) : Bool :=
  c = ' ' ∨ c = '\t' ∨ c = '\n' ∨ c = '\r'

/-- `parseInt(s)` with no radix argument: skip whitespace, optional sign,
optional `0x`/`0X` prefix (then hexadecimal, otherwise decimal), longest
digit prefix, trailing garbage ignored; `none` models `NaN`. -/
def jsParseInt (s : String) : Option Int :=
  let cs := s.toList.dropWhile jsWhitespace
  let signed : Bool × List Char :=
    match cs with
    | '-' :: rest => (true, rest)
    | '+' :: rest => (false, rest)
    | _ => (false, cs)
  let based : Nat × List Char :=
    match signed.2 with
    | '0' :: 'x' :: rest => (16, rest)
    | '0' :: 'X' :: rest => (16, rest)
    | _ => (10, signed.2)
  let ds := takeDigits based.1 based.2
  if ds = [] then none
  else
    let n : Nat := ds.foldl (fun a d => a * based.1 + d) 0
    some (if signed.1 then -(n : Int) else (n : Int))

/-- `parseInt(req.headers['x-chunk-offset'])`: a missing header is
`undefined`, and `parseInt(undefined)` is `NaN`. -/
def jsParseIntHeader : Option String → Option Int
  | none => none
  | some s => jsParseInt s

/-! ### Blob writes (`fs.open(filePath, 'r+')` + `fs.write(fd, .., offset)`) -/

/-- Pad a byte list with zeros to length at least `n` (a positional write
past the end of the file leaves a zero-filled sparse hole). -/
def padTo (bl : List Nat) (n : Nat) : List Nat :=
  bl ++ List.replicate (n - bl.length) 0

/-- Positional write of `b` at offset `pos` into the blob: bytes
`[pos, pos + b.length)` become `b`, everything else is preserved, and the
file grows (zero-filled) exactly as far as needed.  Writing an empty buffer
changes nothing. -/
def writeAt (bl : List Nat) (pos : Nat) (b : List Nat) : List Nat :=
  if b = [] then bl
  else
    (padTo bl (pos + b.length)).take pos ++ b ++
      (padTo bl (pos + b.length)).drop (pos + b.length)

/-- The `INSERT ... ON DUPLICATE KEY UPDATE status="UPLOADED"` upsert of a
Chunk row: insert the index if absent, otherwise keep the single row. -/
def upsertChunk (cs : List Nat) (i : Nat) : List Nat :=
  if i ∈ cs then cs else i :: cs

/-- `uploadController.uploadChunk`: parse `X-Chunk-Offset` with `parseInt`
(`NaN` ⇒ 400, no mutation); otherwise ensure the blob file exists, write the
body at the parsed offset, upsert the Chunk row, and respond
`200 {success: true}`.  Offset `-1` is Node's write-at-current-position
(position 0 of the freshly opened descriptor); any other negative offset
makes `fs.write` throw, which the handler turns into `500` with no state
change. -/
def uploadChunk (st : SState) (offHeader : Option String) (body : List Nat)
    (idx : Nat) : SState × SResp :=
  match jsParseIntHeader offHeader with
  | none => (st, { code := 400, errorMsg := some "Missing X-Chunk-Offset header" })
  | some off =>
      let bl := st.blob.getD []
      if 0 ≤ off then
        ({ st with
            blob := some (writeAt bl off.toNat body)
            chunkSet := upsertChunk st.chunkSet idx },
         { code := 200, success := some true })
      else if off = -1 then
        ({ st with
            blob := some (writeAt bl 0 body)
            chunkSet := upsertChunk st.chunkSet idx },
         { code := 200, success := some true })
      else
        (st, { code := 500, errorMsg := some "Write failed" })

/-! ### Finalize and cleanup -/

/-- The synchronous head of `uploadController.finalizeUpload`, up to the
point where the hashing stream is started: 404 when the Upload row is
missing, `200 {status, message}` when already `COMPLETED`, `409` when
`PROCESSING`, and otherwise the `UPDATE uploads SET status = "PROCESSING"`
lock write (the returned response is `none`: the caller goes on to
stream). -/
def finalizeBegin (st : SState) : SState × Option SResp :=
  match st.upload with
  | none => (st, some { code := 404, errorMsg := some "Upload not found" })
  | some u =>
      if u.status = .completedS then
        (st, some { code := 200, statusField := some "COMPLETED",
                    message := some "Already completed" })
      else if u.status = .processingS then
        (st, some { code := 409, errorMsg := some "Already processing" })
      else
        ({ st with upload := some { u with status := .processingS } }, none)

/-- Lowercase hexadecimal digit character for `n < 16`. -/
def hexChar (n : Nat) : Char :=
  if n < 10 then Char.ofNat ('0'.toNat + n)
  else Char.ofNat ('a'.toNat + (n - 10))

/-- Lowercase hex encoding of a byte list, two digits per byte — the
encoding `hash.digest('hex')` uses. -/
def hexLower (bytes : List Nat) : String :=
  String.mk (bytes.foldr (fun b acc => hexChar (b / 16 % 16) :: hexChar (b % 16) :: acc) [])

/-- The `finish` continuation inside `finalizeUpload`: set the Upload row to
`COMPLETED` with `final_hash`, respond
`200 {status, uploadId, hash, zipContent}`. -/
def finishUp (u : SUpload) (st : SState) (h : String) (entries : List String) :
    SState × SResp :=
  ({ st with upload := some { u with status := .completedS, finalHash := some h } },
   { code := 200, statusField := some "COMPLETED", hash := some h,
     zipContent := some entries })

/-- The stream-end part of `uploadController.finalizeUpload`, run by the
finalizer that performed the `PROCESSING` lock write (the callback exists
only for that winner, hence the `PROCESSING` guard).  `digest` abstracts the
external `crypto` SHA-256 (a function from the blob bytes to the 32 digest
bytes); `zipOf` abstracts the external `yauzl` entry listing (including its
sentinel lists for non-ZIP blobs).  A missing blob file makes the read
stream error: Upload `FAILED`, 500.  Otherwise `serverHash` is the
lowercase-hex digest; a truthy `clientHash` differing from it sets the
Upload `FAILED` and responds
`400 {error: "Hash mismatch", serverHash, clientHash}`; otherwise
`finish` completes the upload. -/
def finalizeEnd (digest : List Nat → List Nat) (zipOf : List Nat → List String)
    (st : SState) (clientHash : Option String) : SState × SResp :=
  match st.upload with
  | some u =>
      if u.status = .processingS then
        match st.blob with
        | none =>
            ({ st with upload := some { u with status := .failedS } },
             { code := 500, errorMsg := some "File read error during hashing" })
        | some bl =>
            let serverHash := hexLower (digest bl)
            match clientHash with
            | some ch =>
                if ch ≠ "" ∧ ch ≠ serverHash then
                  ({ st with upload := some { u with status := .failedS } },
                   { code := 400, errorMsg := some "Hash mismatch",
                     serverHashField := some serverHash,
                     clientHashField := some ch })
                else finishUp u st serverHash (zipOf bl)
            | none => finishUp u st serverHash (zipOf bl)
      else (st, { code := 0 })
  | none => (st, { code := 0 })

/-- `uploadController.cleanup` restricted to this upload: if the row is
`UPLOADING` and stale (older than 24 h, abstracted as the boolean `stale`),
remove the blob and set the row `FAILED`. -/
def cleanupStep (st : SState) (stale : Bool) : SState × SResp :=
  match st.upload with
  | some u =>
      if u.status = .uploadingS ∧ stale then
        ({ st with upload := some { u with status := .failedS }, blob := none },
         { code := 200 })
      else (st, { code := 200 })
  | none => (st, { code := 200 })

/-- One server operation against this upload id. -/
inductive SOp
  | putOp (offHeader : Option String) (body : List Nat) (idx : Nat)
  | finBeginOp
  | finEndOp (clientHash : Option String)
  | cleanupOp (stale : Bool)
deriving DecidableEq, Repr

/-- State effect of one server operation. -/
def sstep (digest : List Nat → List Nat) (zipOf : List Nat → List String)
    (st : SState) : SOp → SState
  | .putOp h b i => (uploadChunk st h b i).1
  | .finBeginOp => (finalizeBegin st).1
  | .finEndOp ch => (finalizeEnd digest zipOf st ch).1
  | .cleanupOp b => (cleanupStep st b).1

/-- Run a sequence of server operations. -/
def srun (digest : List Nat → List Nat) (zipOf : List Nat → List String)
    (st : SState) (ops : List SOp) : SState :=
  ops.foldl (sstep digest zipOf) st

/-- The status of the Upload row, if present. -/
def sStatus (st : SState) : Option SStatus :=
  st.upload.map (·.status)

/-! ## Specification predicates and concrete scenario data -/

/-- Chunk indices of the chunk table are pairwise distinct (true of the
table built by `start()` and preserved by every handler). -/
def WFidx (e : Engine) : Prop :=
  (e.chunks.map (·.index)).Nodup

/-- The state invariant of failure-free executions: `activeUploads` counts
the in-flight requests exactly, in-flight requests are pairwise distinct
and correspond one-to-one to the chunks in `UPLOADING` state, at most
`MAX_CONCURRENCY` requests are in flight, and no backoff timer is
pending. -/
def Inv (e : Engine) : Prop :=
  WFidx e ∧
  e.activeUploads = (e.inflight.length : Int) ∧
  e.inflight.Nodup ∧
  (∀ i, i ∈ e.inflight ↔ ∃ c ∈ e.chunks, c.index = i ∧ c.status = .uploading) ∧
  e.inflight.length ≤ 3 ∧
  e.timers = []

/-- The backoff-schedule property claimed of the ghost log (newest entry
first): whenever a dispatch of chunk `i` is the first dispatch of `i` after
the `k`-th failure of `i` (`k ≤ MAX_RETRIES`), it happens no earlier than
`2^k · 1000` ms after that failure. -/
def noEarlyRetry (lg : List LogEntry) : Prop :=
  ∀ l1 i t' l2 k t l3,
    lg = l1 ++ .dispatchE i t' :: l2 ++ .failE i k t :: l3 →
    k ≤ MAX_RETRIES →
    (∀ u, LogEntry.dispatchE i u ∉ l2) →
    t + 2 ^ k * 1000 ≤ t'

/-- A 5-chunk file (exactly `5 · CHUNK_SIZE` bytes). -/
def fiveChunkSize : Nat := 5 * CHUNK_SIZE

/-- Event trace driving the client engine past the concurrency bound: chunk
0 fails once (its backoff timer is scheduled, but the scheduler immediately
re-dispatches it); the timer then fires while the re-dispatched request is
still in flight, releasing a second slot and re-dispatching chunk 0 a third
time; the two outstanding requests for chunk 0 then both resolve, each
releasing a slot. -/
def overCapTrace : List TEv :=
  [⟨1000, .failureE 0⟩, ⟨3000, .timerE 0 3000⟩, ⟨4000, .successE 0⟩, ⟨4000, .successE 0⟩]

/-- A fixed stand-in for the external SHA-256 digest: 32 zero bytes. -/
def exDigest : List Nat → List Nat := fun _ => List.replicate 32 0

/-- A fixed stand-in for the external ZIP entry listing. -/
def exZip : List Nat → List String := fun _ => ["(Not a valid ZIP archive)"]

/-- A live upload: 3 chunks expected, no Chunk rows yet, 3 blob bytes. -/
def stLive : SState :=
  { upload := some { totalSize := 15, totalChunks := 3, status := .uploadingS,
                     finalHash := none }
    chunkSet := []
    blob := some [1, 2, 3] }

/-- The same upload mid-finalize (status `PROCESSING`). -/
def stProcessing : SState :=
  { stLive with
      upload := some { totalSize := 15, totalChunks := 3, status := .processingS,
                       finalHash := none } }

/-- A completed upload with a stored final hash. -/
def stDone : SState :=
  { upload := some { totalSize := 1, totalChunks := 1, status := .completedS,
                     finalHash := some "ab12" }
    chunkSet := [0]
    blob := some [65] }

/-- The engine of a 1-byte upload right after its single chunk's first
failure (at t = 5 ms). -/
def engAfterFail : Engine :=
  (step (startEngine 1) ⟨5, .failureE 0⟩).getD (startEngine 1)

/-- The same engine after its backoff timer fires at its scheduled time. -/
def engAfterTimer : Engine :=
  (step engAfterFail ⟨2005, .timerE 0 2005⟩).getD engAfterFail

/-! ## Helper lemmas: blob writes -/

theorem padTo_of_le {bl : List Nat} {n : Nat} (h : n ≤ bl.length) :
    padTo bl n = bl := by
  simp [padTo, Nat.sub_eq_zero_of_le h]

theorem padTo_length (bl : List Nat) (n : Nat) :
    (padTo bl n).length = max bl.length n := by
  simp [padTo]
  omega

theorem writeAt_length {b : List Nat} (bl : List Nat) (pos : Nat) (hb : b ≠ []) :
    (writeAt bl pos b).length = max bl.length (pos + b.length) := by
  have hp : (padTo bl (pos + b.length)).length = max bl.length (pos + b.length) :=
    padTo_length bl (pos + b.length)
  simp only [writeAt, if_neg hb, List.length_append, List.length_take, List.length_drop, hp]
  omega

theorem splice_take {T D : List Nat} (b : List Nat) {pos : Nat}
    (htlen : T.length = pos) : (T ++ b ++ D).take pos = T := by
  rw [List.append_assoc]
  exact List.take_left' htlen

theorem splice_drop {T D : List Nat} (b : List Nat) {pos : Nat}
    (htlen : T.length = pos) : (T ++ b ++ D).drop (pos + b.length) = D :=
  List.drop_left' (by simp [htlen])

theorem writeAt_idem (bl : List Nat) (pos : Nat) (b : List Nat) :
    writeAt (writeAt bl pos b) pos b = writeAt bl pos b := by
  by_cases hb : b = []
  · simp [writeAt, hb]
  · have hplen : (padTo bl (pos + b.length)).length = max bl.length (pos + b.length) :=
      padTo_length bl (pos + b.length)
    have htlen : ((padTo bl (pos + b.length)).take pos).length = pos := by
      simp only [List.length_take, hplen]
      omega
    have hW : writeAt bl pos b =
        (padTo bl (pos + b.length)).take pos ++ b ++
          (padTo bl (pos + b.length)).drop (pos + b.length) := by
      rw [writeAt, if_neg hb]
    have hlen : (writeAt bl pos b).length = max bl.length (pos + b.length) :=
      writeAt_length bl pos hb
    have hpadW : padTo (writeAt bl pos b) (pos + b.length) = writeAt bl pos b :=
      padTo_of_le (by omega)
    calc writeAt (writeAt bl pos b) pos b
        = (padTo (writeAt bl pos b) (pos + b.length)).take pos ++ b ++
            (padTo (writeAt bl pos b) (pos + b.length)).drop (pos + b.length) := by
          rw [writeAt, if_neg hb]
      _ = (writeAt bl pos b).take pos ++ b ++
            (writeAt bl pos b).drop (pos + b.length) := by rw [hpadW]
      _ = (padTo bl (pos + b.length)).take pos ++ b ++
            (padTo bl (pos + b.length)).drop (pos + b.length) := by
          rw [hW, splice_take b htlen, splice_drop b htlen]
      _ = writeAt bl pos b := hW.symm

theorem writeAt_slice (bl : List Nat) (pos : Nat) (b : List Nat) :
    (((writeAt bl pos b).drop pos).take b.length) = b := by
  by_cases hb : b = []
  · simp [hb]
  · have hplen : (padTo bl (pos + b.length)).length = max bl.length (pos + b.length) :=
      padTo_length bl (pos + b.length)
    have htlen : ((padTo bl (pos + b.length)).take pos).length = pos := by
      simp only [List.length_take, hplen]
      omega
    rw [writeAt, if_neg hb, List.append_assoc, List.drop_left' htlen, List.take_left]

theorem mem_upsertChunk_self (cs : List Nat) (i : Nat) :
    i ∈ upsertChunk cs i := by
  by_cases h : i ∈ cs <;> simp [upsertChunk, h]

theorem upsertChunk_idem (cs : List Nat) (i : Nat) :
    upsertChunk (upsertChunk cs i) i = upsertChunk cs i := by
  by_cases h : i ∈ cs <;> simp [upsertChunk, h]

theorem upsertChunk_nodup {cs : List Nat} (h : cs.Nodup) (i : Nat) :
    (upsertChunk cs i).Nodup := by
  by_cases hm : i ∈ cs <;> simp [upsertChunk, hm, h]

theorem count_upsertChunk {cs : List Nat} (h : cs.Nodup) (i : Nat) :
    (upsertChunk cs i).count i = 1 :=
  List.count_eq_one_of_mem (upsertChunk_nodup h i) (mem_upsertChunk_self cs i)

/-! ## Helper lemmas: lowercase hex encoding -/

theorem hexChar_mem_of_lt {n : Nat} (h : n < 16) :
    hexChar n ∈ ("0123456789abcdef".toList) := by
  interval_cases n <;> decide

theorem hexLower_mem {bs : List Nat} {c : Char} (h : c ∈ (hexLower bs).toList) :
    c ∈ ("0123456789abcdef".toList) := by
  induction bs with
  | nil => simp [hexLower] at h
  | cons b rest ih =>
      have h' : c = hexChar (b / 16 % 16) ∨ c = hexChar (b % 16) ∨
          c ∈ (hexLower rest).toList := by
        simpa [hexLower] using h
      rcases h' with h' | h' | h'
      · rw [h']; exact hexChar_mem_of_lt (Nat.mod_lt _ (by norm_num))
      · rw [h']; exact hexChar_mem_of_lt (Nat.mod_lt _ (by norm_num))
      · exact ih h'

/-! ## Claim C7: chunk-plan arity -/

/-- C7 (counterexample): the claim asserts `total_chunks ≥ 1` for every
file, including a zero-byte file; but `Math.ceil(0 / chunkSize)` is `0`, so
a zero-byte file gets `total_chunks = 0`, not a positive integer. -/
theorem totalChunks_zero_file_cx :
    totalChunksOf 0 = 0 ∧ ¬ (1 ≤ totalChunksOf 0) := by decide

/-- C7 (amended): `total_chunks` computed on `start()` is exactly
`ceil(file_size / chunk_size)` (the least `n` with `file_size ≤ n · chunk_size`),
and it is positive iff the file is nonempty; the chunk table has exactly
`total_chunks` entries.  A zero-byte file yields `total_chunks = 0`. -/
theorem totalChunks_ceil_spec (sz : Nat) :
    sz ≤ totalChunksOf sz * CHUNK_SIZE ∧
    (∀ m : Nat, sz ≤ m * CHUNK_SIZE → totalChunksOf sz ≤ m) ∧
    (1 ≤ totalChunksOf sz ↔ 1 ≤ sz) ∧
    (initChunks sz).length = totalChunksOf sz := by
  have hC : CHUNK_SIZE = 5242880 := by norm_num [CHUNK_SIZE]
  refine ⟨?_, ?_, ?_, ?_⟩
  · simp only [totalChunksOf, hC]
    omega
  · intro m hm
    simp only [totalChunksOf, hC]
    rw [hC] at hm
    omega
  · simp only [totalChunksOf, hC]
    omega
  · simp [initChunks]

/-- C7 (witness for `totalChunks_ceil_spec`). -/
theorem totalChunks_ceil_spec_wit :
    (1 : Nat) ≤ totalChunksOf 1 * CHUNK_SIZE ∧ totalChunksOf 1 ≤ 1 ∧
      1 ≤ totalChunksOf 1 ∧ (initChunks 1).length = totalChunksOf 1 :=
  ⟨(totalChunks_ceil_spec 1).1,
   (totalChunks_ceil_spec 1).2.1 1 (by norm_num [CHUNK_SIZE]),
   ((totalChunks_ceil_spec 1).2.2.1).mpr (by norm_num),
   (totalChunks_ceil_spec 1).2.2.2⟩

/-! ## Claim C4: repeated finalize of a COMPLETED upload -/

/-- C4 (counterexample): the claim asserts that finalize on a COMPLETED
upload returns the stored result including the stored hash; the code
returns only `{status: 'COMPLETED', message: 'Already completed'}` — the
response's hash field is absent even though `final_hash` is stored. -/
theorem finalize_completed_lacks_hash_cx :
    (finalizeBegin stDone).2 =
      some { code := 200, statusField := some "COMPLETED",
             message := some "Already completed" } ∧
    stDone.upload.map (·.finalHash) = some (some "ab12") ∧
    ({ code := 200, statusField := some "COMPLETED",
       message := some "Already completed" } : SResp).hash = none := by
  refine ⟨rfl, rfl, rfl⟩

/-- C4 (amended): a finalize request against a COMPLETED upload returns
200 with `{status: 'COMPLETED', message: 'Already completed'}` — without
the stored hash — and leaves the Upload and Chunk records (and the blob)
unchanged. -/
theorem finalize_already_completed_response (st : SState) (u : SUpload)
    (hu : st.upload = some u) (hc : u.status = .completedS) :
    (finalizeBegin st).1 = st ∧
    (finalizeBegin st).2 =
      some { code := 200, statusField := some "COMPLETED",
             message := some "Already completed" } := by
  simp [finalizeBegin, hu, hc]

/-- C4 (witness for `finalize_already_completed_response`). -/
theorem finalize_already_completed_response_wit :
    (finalizeBegin stDone).1 = stDone ∧
    (finalizeBegin stDone).2 =
      some { code := 200, statusField := some "COMPLETED",
             message := some "Already completed" } :=
  finalize_already_completed_response stDone
    { totalSize := 1, totalChunks := 1, status := .completedS,
      finalHash := some "ab12" } rfl rfl

/-! ## Claim C10: empty-string clientHash is skipped -/

/-- C10: a finalize request whose `clientHash` is the empty string takes
exactly the same path as one with no `clientHash` at all — the JS guard
`if (clientHash && clientHash !== serverHash)` is false for the falsy empty
string, so hash verification is skipped and the upload completes. -/
theorem finalize_empty_clienthash_eq_none (digest : List Nat → List Nat)
    (zipOf : List Nat → List String) (st : SState) :
    finalizeEnd digest zipOf st (some "") = finalizeEnd digest zipOf st none := by
  unfold finalizeEnd
  cases hu : st.upload with
  | none => rfl
  | some u =>
      by_cases hs : u.status = .processingS
      · cases hb : st.blob with
        | none => simp [hs]
        | some bl => simp [hs]
      · simp [hs]

/-! ## Claim C8: offset validation -/

/-- C8 (counterexample): the claim asserts a 400 with no state mutation
exactly when the offset header is not a valid nonnegative integer; but for
the malformed header `"12.5"`, `parseInt` yields `12`, and the handler
writes the body at offset 12 and answers 200, mutating the state. -/
theorem uploadChunk_malformed_offset_cx :
    (uploadChunk stLive (some "12.5") [9] 0).2.code = 200 ∧
    (uploadChunk stLive (some "12.5") [9] 0).1 ≠ stLive := by decide

/-- C8 (amended): the handler responds 400 (with no state change) exactly
when `parseInt` of the `X-Chunk-Offset` header is `NaN` (header missing, or
not starting with a parsable integer); any header `parseInt` accepts —
including ones with a fractional part or trailing garbage — proceeds to the
write path, and a parsed nonnegative offset gets the body written there,
the Chunk row upserted, and a 200 `{success: true}` response. -/
theorem uploadChunk_offset_validation (st : SState) (h : Option String)
    (b : List Nat) (i : Nat) :
    (jsParseIntHeader h = none →
      uploadChunk st h b i =
        (st, { code := 400, errorMsg := some "Missing X-Chunk-Offset header" })) ∧
    (∀ off : Int, jsParseIntHeader h = some off → 0 ≤ off →
      uploadChunk st h b i =
        ({ st with blob := some (writeAt (st.blob.getD []) off.toNat b)
                   chunkSet := upsertChunk st.chunkSet i },
         { code := 200, success := some true })) ∧
    ((uploadChunk st h b i).2.code = 400 ↔ jsParseIntHeader h = none) := by
  refine ⟨?_, ?_, ?_⟩
  · intro hn
    simp [uploadChunk, hn]
  · intro off ho hnn
    simp [uploadChunk, ho, hnn]
  · cases ho : jsParseIntHeader h with
    | none => simp [uploadChunk, ho]
    | some off =>
        simp only [uploadChunk, ho, iff_false, ne_eq, reduceCtorEq,
          not_false_eq_true]
        by_cases hnn : (0 : Int) ≤ off
        · simp [hnn]
        · by_cases h1 : off = -1 <;> simp [hnn, h1]

/-- C8 (witness for `uploadChunk_offset_validation`). -/
theorem uploadChunk_offset_validation_wit :
    uploadChunk stLive (some "3") [7] 1 =
      ({ stLive with blob := some (writeAt (stLive.blob.getD []) (Int.toNat 3) [7])
                     chunkSet := upsertChunk stLive.chunkSet 1 },
       { code := 200, success := some true }) :=
  (uploadChunk_offset_validation stLive (some "3") [7] 1).2.1 3 (by decide) (by decide)

/-! ## Claim C9: hash verification on finalize -/

/-- C9 (counterexample): a supplied `clientHash` that differs from the
server hash is claimed to force FAILED and 400, but the empty string is
supplied, differs from every hex digest, and is let through by the
truthiness guard: the upload completes with 200. -/
theorem finalize_empty_hash_skipped_cx :
    (finalizeEnd exDigest exZip stProcessing (some "")).2.code = 200 ∧
    sStatus (finalizeEnd exDigest exZip stProcessing (some "")).1 =
      some .completedS ∧
    ("" : String) ≠ hexLower (exDigest [1, 2, 3]) := by decide

/-- C9 (amended): for the winning finalizer, `server_hash` is the
lowercase-hex encoding of the (external) SHA-256 digest of the blob; a
supplied *non-empty* `clientHash` differing from it sets the upload FAILED
with response `400 {error: "Hash mismatch", serverHash, clientHash}`, and a
matching one completes the upload with `final_hash = server_hash`.  (A
supplied empty `clientHash` is treated as absent; see the counterexample.) -/
theorem finalize_hash_verification (digest : List Nat → List Nat)
    (zipOf : List Nat → List String) (st : SState) (u : SUpload) (bl : List Nat)
    (ch : String) (hu : st.upload = some u) (hp : u.status = .processingS)
    (hb : st.blob = some bl) (hne : ch ≠ "") :
    (ch ≠ hexLower (digest bl) →
      finalizeEnd digest zipOf st (some ch) =
        ({ st with upload := some { u with status := .failedS } },
         { code := 400, errorMsg := some "Hash mismatch",
           serverHashField := some (hexLower (digest bl)),
           clientHashField := some ch })) ∧
    (ch = hexLower (digest bl) →
      finalizeEnd digest zipOf st (some ch) =
        ({ st with upload := some { u with status := .completedS,
                                           finalHash := some (hexLower (digest bl)) } },
         { code := 200, statusField := some "COMPLETED",
           hash := some (hexLower (digest bl)),
           zipContent := some (zipOf bl) })) ∧
    (∀ c ∈ (hexLower (digest bl)).toList, c ∈ ("0123456789abcdef".toList)) := by
  refine ⟨?_, ?_, fun c hc => hexLower_mem hc⟩
  · intro hd
    simp [finalizeEnd, hu, hp, hb, hne, hd]
  · intro hd
    simp [finalizeEnd, hu, hp, hb, hd, finishUp]

/-- C9 (witness for `finalize_hash_verification`). -/
theorem finalize_hash_verification_wit :
    finalizeEnd exDigest exZip stProcessing (some "x") =
      ({ stProcessing with
           upload := some { totalSize := 15, totalChunks := 3,
                            status := .failedS, finalHash := none } },
       { code := 400, errorMsg := some "Hash mismatch",
         serverHashField := some (hexLower (exDigest [1, 2, 3])),
         clientHashField := some "x" }) :=
  (finalize_hash_verification exDigest exZip stProcessing
      { totalSize := 15, totalChunks := 3, status := .processingS, finalHash := none }
      [1, 2, 3] "x" rfl rfl rfl (by decide)).1 (by decide)

/-! ## Claim C6: idempotent chunk PUT -/

/-- C6: issuing the same valid chunk PUT twice yields the same post-state
and response as issuing it once: exactly one Chunk row for the index, and
the body's bytes at `[offset, offset + length)` of the blob
(last-write-wins). -/
theorem uploadChunk_idempotent (st : SState) (h : Option String) (b : List Nat)
    (i : Nat) (off : Int) (ho : jsParseIntHeader h = some off) (hnn : 0 ≤ off)
    (hnd : st.chunkSet.Nodup) :
    uploadChunk (uploadChunk st h b i).1 h b i = uploadChunk st h b i ∧
    (uploadChunk st h b i).2 = { code := 200, success := some true } ∧
    (uploadChunk st h b i).1.chunkSet.count i = 1 ∧
    ((((uploadChunk st h b i).1.blob.getD []).drop off.toNat).take b.length = b) := by
  have h1 : uploadChunk st h b i =
      ({ st with blob := some (writeAt (st.blob.getD []) off.toNat b)
                 chunkSet := upsertChunk st.chunkSet i },
       { code := 200, success := some true }) := by
    simp [uploadChunk, ho, hnn]
  refine ⟨?_, ?_, ?_, ?_⟩
  · rw [h1]
    simp [uploadChunk, ho, hnn, writeAt_idem, upsertChunk_idem]
  · rw [h1]
  · rw [h1]
    exact count_upsertChunk hnd i
  · rw [h1]
    simpa using writeAt_slice (st.blob.getD []) off.toNat b

/-- C6 (witness for `uploadChunk_idempotent`). -/
theorem uploadChunk_idempotent_wit :
    uploadChunk (uploadChunk stLive (some "0") [1, 2] 0).1 (some "0") [1, 2] 0 =
      uploadChunk stLive (some "0") [1, 2] 0 ∧
    (uploadChunk stLive (some "0") [1, 2] 0).2 = { code := 200, success := some true } ∧
    (uploadChunk stLive (some "0") [1, 2] 0).1.chunkSet.count 0 = 1 ∧
    ((((uploadChunk stLive (some "0") [1, 2] 0).1.blob.getD []).drop
        (Int.toNat 0)).take 2 = [1, 2]) :=
  uploadChunk_idempotent stLive (some "0") [1, 2] 0 0 (by decide) (by decide) (by decide)

/-! ## Claim C5: completeness invariant I4 -/

/-- C5 (counterexample): an upload expecting 3 chunks is finalized to
COMPLETED with zero Chunk rows (no completeness check), and a PUT for index
7 creates a Chunk row outside `{0, 1, 2}` (no index bound check). -/
theorem server_completes_incomplete_cx :
    sStatus (srun exDigest exZip stLive [.finBeginOp, .finEndOp none]) =
      some .completedS ∧
    (srun exDigest exZip stLive [.finBeginOp, .finEndOp none]).chunkSet.length = 0 ∧
    stLive.upload.map (·.totalChunks) = some 3 ∧
    7 ∈ (uploadChunk stLive (some "35") [5] 7).1.chunkSet ∧ ¬ (7 < 3) := by decide

/-- C5 (amended): the chunk PUT handler records exactly the requested index
with no bound check against `total_chunks`, and the finalizer never reads
the Chunk records at all: its resulting state is independent of the chunk
set, so COMPLETED is reachable with any number of Chunk rows. -/
theorem server_no_completeness_check :
    (∀ st h b i off, jsParseIntHeader h = some off → 0 ≤ off →
        i ∈ (uploadChunk st h b i).1.chunkSet) ∧
    (∀ st cs, (finalizeBegin { st with chunkSet := cs }).1 =
        { (finalizeBegin st).1 with chunkSet := cs }) ∧
    (∀ digest zipOf st cs ch,
        (finalizeEnd digest zipOf { st with chunkSet := cs } ch).1 =
        { (finalizeEnd digest zipOf st ch).1 with chunkSet := cs }) := by
  refine ⟨?_, ?_, ?_⟩
  · intro st h b i off ho hnn
    simp [uploadChunk, ho, hnn]
    exact mem_upsertChunk_self st.chunkSet i
  · intro st cs
    cases hu : st.upload with
    | none => simp [finalizeBegin, hu]
    | some u =>
        by_cases hc : u.status = .completedS
        · simp [finalizeBegin, hu, hc]
        · by_cases hp : u.status = .processingS <;> simp [finalizeBegin, hu, hc, hp]
  · intro digest zipOf st cs ch
    cases hu : st.upload with
    | none => simp [finalizeEnd, hu]
    | some u =>
        by_cases hp : u.status = .processingS
        · cases hb : st.blob with
          | none => simp [finalizeEnd, hu, hp, hb]
          | some bl =>
              cases ch with
              | none => simp [finalizeEnd, hu, hp, hb, finishUp]
              | some c =>
                  by_cases hm : c ≠ "" ∧ c ≠ hexLower (digest bl) <;>
                    simp [finalizeEnd, hu, hp, hb, hm, finishUp]
        · simp [finalizeEnd, hu, hp]

/-- C5 (witness for `server_no_completeness_check`). -/
theorem server_no_completeness_check_wit :
    7 ∈ (uploadChunk stLive (some "35") [5] 7).1.chunkSet :=
  server_no_completeness_check.1 stLive (some "35") [5] 7 35 (by decide) (by decide)

/-! ## Claim C3: server status machine -/

/-- C3 (counterexample): a FAILED upload (failed via hash mismatch) is not
terminal: a further finalize moves it to PROCESSING and then to COMPLETED,
contradicting the claimed terminality of FAILED. -/
theorem server_failed_refinalize_cx :
    sStatus (srun exDigest exZip stLive [.finBeginOp, .finEndOp (some "x")]) =
      some .failedS ∧
    sStatus (srun exDigest exZip stLive
        [.finBeginOp, .finEndOp (some "x"), .finBeginOp]) = some .processingS ∧
    sStatus (srun exDigest exZip stLive
        [.finBeginOp, .finEndOp (some "x"), .finBeginOp, .finEndOp none]) =
      some .completedS := by decide

theorem uploadChunk_upload_eq (st : SState) (hh : Option String)
    (bb : List Nat) (ii : Nat) :
    (uploadChunk st hh bb ii).1.upload = st.upload := by
  cases hph : jsParseIntHeader hh with
  | none => simp [uploadChunk, hph]
  | some off =>
      by_cases hnn : (0 : Int) ≤ off
      · simp [uploadChunk, hph, hnn]
      · by_cases h1 : off = -1 <;> simp [uploadChunk, hph, hnn, h1]

theorem finalizeBegin_status (st : SState) (u : SUpload) (hu : st.upload = some u) :
    (u.status = .completedS ∨ u.status = .processingS) ∧
      sStatus (finalizeBegin st).1 = some u.status ∨
    (u.status = .uploadingS ∨ u.status = .failedS) ∧
      sStatus (finalizeBegin st).1 = some .processingS := by
  cases hc : u.status <;>
    simp [finalizeBegin, hu, hc, sStatus]

theorem finalizeEnd_status (digest : List Nat → List Nat)
    (zipOf : List Nat → List String) (st : SState) (u : SUpload)
    (ch : Option String) (hu : st.upload = some u) :
    sStatus (finalizeEnd digest zipOf st ch).1 = some u.status ∨
    u.status = .processingS ∧
      (sStatus (finalizeEnd digest zipOf st ch).1 = some .completedS ∨
       sStatus (finalizeEnd digest zipOf st ch).1 = some .failedS) := by
  by_cases hp : u.status = .processingS
  · right
    refine ⟨hp, ?_⟩
    cases hb : st.blob with
    | none => simp [finalizeEnd, hu, hp, hb, sStatus]
    | some bl =>
        cases ch with
        | none => simp [finalizeEnd, hu, hp, hb, finishUp, sStatus]
        | some c =>
            by_cases hm : c ≠ "" ∧ c ≠ hexLower (digest bl) <;>
              simp [finalizeEnd, hu, hp, hb, hm, finishUp, sStatus]
  · left
    simp [finalizeEnd, hu, hp, sStatus]

theorem cleanupStep_status (st : SState) (u : SUpload) (stale : Bool)
    (hu : st.upload = some u) :
    sStatus (cleanupStep st stale).1 = some u.status ∨
    u.status = .uploadingS ∧ sStatus (cleanupStep st stale).1 = some .failedS := by
  by_cases hc : u.status = .uploadingS ∧ stale = true
  · right
    refine ⟨hc.1, ?_⟩
    simp [cleanupStep, hu, hc, sStatus]
  · left
    simp only [cleanupStep, hu]
    rw [if_neg (by simpa using hc)]
    simp [sStatus, hu]

/-- C3 (amended): under every server operation, COMPLETED is terminal, and
every status change is along
UPLOADING→PROCESSING→{COMPLETED, FAILED}, UPLOADING→FAILED (cleanup), or
the extra FAILED→PROCESSING edge: the finalize guard checks only COMPLETED
and PROCESSING, so a FAILED upload is re-finalized rather than left
FAILED. -/
theorem server_status_transitions (digest : List Nat → List Nat)
    (zipOf : List Nat → List String) (st : SState) (op : SOp) (a b : SStatus)
    (ha : sStatus st = some a) (hb : sStatus (sstep digest zipOf st op) = some b) :
    (a = .completedS → b = .completedS) ∧
    (a = b ∨ (a = .uploadingS ∧ b = .processingS) ∨
      (a = .failedS ∧ b = .processingS) ∨
      (a = .processingS ∧ (b = .completedS ∨ b = .failedS)) ∨
      (a = .uploadingS ∧ b = .failedS)) := by
  cases hu : st.upload with
  | none => simp [sStatus, hu] at ha
  | some u =>
      have ha' : a = u.status := by
        rw [sStatus, hu] at ha
        exact (Option.some.inj ha).symm
      cases op with
      | putOp hh bb ii =>
          rw [sstep, sStatus, uploadChunk_upload_eq st hh bb ii, ← sStatus, ha] at hb
          have hab : a = b := Option.some.inj hb
          exact ⟨fun hc => hab ▸ hc, Or.inl hab⟩
      | finBeginOp =>
          rw [sstep] at hb
          rcases finalizeBegin_status st u hu with ⟨hs, he⟩ | ⟨hs, he⟩
          · rw [he] at hb
            have hab : a = b := ha' ▸ Option.some.inj hb
            exact ⟨fun hc => hab ▸ hc, Or.inl hab⟩
          · rw [he] at hb
            have hbp : b = .processingS := (Option.some.inj hb).symm
            rcases hs with hs | hs
            · refine ⟨fun hc => ?_, Or.inr (Or.inl ⟨ha' ▸ hs, hbp⟩)⟩
              rw [ha', hs] at hc
              cases hc
            · refine ⟨fun hc => ?_, Or.inr (Or.inr (Or.inl ⟨ha' ▸ hs, hbp⟩))⟩
              rw [ha', hs] at hc
              cases hc
      | finEndOp ch =>
          rw [sstep] at hb
          rcases finalizeEnd_status digest zipOf st u ch hu with he | ⟨hs, he | he⟩
          · rw [he] at hb
            have hab : a = b := ha' ▸ Option.some.inj hb
            exact ⟨fun hc => hab ▸ hc, Or.inl hab⟩
          · rw [he] at hb
            have hbc : b = .completedS := (Option.some.inj hb).symm
            exact ⟨fun _ => hbc, Or.inr (Or.inr (Or.inr (Or.inl
              ⟨ha' ▸ hs, Or.inl hbc⟩)))⟩
          · rw [he] at hb
            have hbf : b = .failedS := (Option.some.inj hb).symm
            refine ⟨fun hc => ?_, Or.inr (Or.inr (Or.inr (Or.inl
              ⟨ha' ▸ hs, Or.inr hbf⟩)))⟩
            rw [ha', hs] at hc
            cases hc
      | cleanupOp stale =>
          rw [sstep] at hb
          rcases cleanupStep_status st u stale hu with he | ⟨hs, he⟩
          · rw [he] at hb
            have hab : a = b := ha' ▸ Option.some.inj hb
            exact ⟨fun hc => hab ▸ hc, Or.inl hab⟩
          · rw [he] at hb
            have hbf : b = .failedS := (Option.some.inj hb).symm
            refine ⟨fun hc => ?_, Or.inr (Or.inr (Or.inr (Or.inr
              ⟨ha' ▸ hs, hbf⟩)))⟩
            rw [ha', hs] at hc
            cases hc

/-- C3 (witness for `server_status_transitions`). -/
theorem server_status_transitions_wit :
    SStatus.uploadingS = SStatus.processingS ∨
    (SStatus.uploadingS = SStatus.uploadingS ∧
      SStatus.processingS = SStatus.processingS) ∨
    (SStatus.uploadingS = SStatus.failedS ∧
      SStatus.processingS = SStatus.processingS) ∨
    (SStatus.uploadingS = SStatus.processingS ∧
      (SStatus.processingS = SStatus.completedS ∨
       SStatus.processingS = SStatus.failedS)) ∨
    (SStatus.uploadingS = SStatus.uploadingS ∧
      SStatus.processingS = SStatus.failedS) :=
  (server_status_transitions exDigest exZip stLive .finBeginOp
    .uploadingS .processingS rfl rfl).2

/-! ## Helper lemmas: the client chunk table -/

theorem modifyAt_map_index (cs : List Chunk) (i : Nat) (f : Chunk → Chunk)
    (hf : ∀ c, (f c).index = c.index) :
    (modifyAt cs i f).map (·.index) = cs.map (·.index) := by
  simp only [modifyAt, List.map_map]
  exact List.map_congr_left fun c _ => by
    by_cases h : c.index = i <;> simp [h, hf]

theorem exists_modifyAt_ne {cs : List Chunk} {i j : Nat} {f : Chunk → Chunk}
    (hf : ∀ c, (f c).index = c.index) (hne : j ≠ i) (p : Chunk → Prop) :
    (∃ c ∈ modifyAt cs i f, c.index = j ∧ p c) ↔ ∃ c ∈ cs, c.index = j ∧ p c := by
  constructor
  · rintro ⟨c', hc', hj, hp⟩
    rw [modifyAt, List.mem_map] at hc'
    obtain ⟨c, hc, hceq⟩ := hc'
    by_cases h : c.index = i
    · exfalso
      rw [← hceq, if_pos h, hf] at hj
      exact hne (by rw [← hj, h])
    · rw [← hceq, if_neg h] at hj hp
      exact ⟨c, hc, hj, hp⟩
  · rintro ⟨c, hc, hj, hp⟩
    have h : ¬ c.index = i := by rw [hj]; exact hne
    refine ⟨c, ?_, hj, hp⟩
    rw [modifyAt, List.mem_map]
    exact ⟨c, hc, by rw [if_neg h]⟩

theorem exists_modifyAt_eq {cs : List Chunk} {i : Nat} {f : Chunk → Chunk}
    (hf : ∀ c, (f c).index = c.index) (p : Chunk → Prop) :
    (∃ c ∈ modifyAt cs i f, c.index = i ∧ p c) ↔
      ∃ c ∈ cs, c.index = i ∧ p (f c) := by
  constructor
  · rintro ⟨c', hc', hj, hp⟩
    rw [modifyAt, List.mem_map] at hc'
    obtain ⟨c, hc, hceq⟩ := hc'
    by_cases h : c.index = i
    · rw [← hceq, if_pos h] at hp
      exact ⟨c, hc, h, hp⟩
    · exfalso
      rw [← hceq, if_neg h] at hj
      exact h hj
  · rintro ⟨c, hc, hi, hp⟩
    refine ⟨f c, ?_, by rw [hf, hi], hp⟩
    rw [modifyAt, List.mem_map]
    exact ⟨c, hc, by rw [if_pos hi]⟩

theorem eq_of_index_eq {cs : List Chunk} (hWF : (cs.map (·.index)).Nodup)
    {c1 c2 : Chunk} (h1 : c1 ∈ cs) (h2 : c2 ∈ cs) (he : c1.index = c2.index) :
    c1 = c2 := by
  induction cs with
  | nil => cases h1
  | cons hd tl ih =>
      rw [List.map_cons, List.nodup_cons] at hWF
      rcases List.mem_cons.mp h1 with rfl | h1' <;>
        rcases List.mem_cons.mp h2 with rfl | h2'
      · rfl
      · exfalso
        apply hWF.1
        rw [he]
        exact List.mem_map_of_mem _ h2'
      · exfalso
        apply hWF.1
        rw [← he]
        exact List.mem_map_of_mem _ h1'
      · exact ih hWF.2 h1' h2'

theorem findChunk_eq_of_mem {cs : List Chunk} (hWF : (cs.map (·.index)).Nodup)
    {c : Chunk} {i : Nat} (hc : c ∈ cs) (hi : c.index = i) :
    findChunk cs i = some c := by
  induction cs with
  | nil => cases hc
  | cons hd tl ih =>
      rw [List.map_cons, List.nodup_cons] at hWF
      rcases List.mem_cons.mp hc with rfl | hmem
      · simp [findChunk, List.find?_cons, hi]
      · have hne : ¬ hd.index = i := by
          intro h
          apply hWF.1
          rw [h, ← hi]
          exact List.mem_map_of_mem _ hmem
        have hd' : decide (hd.index = i) = false := by simpa using hne
        simp only [findChunk, List.find?_cons, hd']
        exact ih hWF.2 hmem

theorem countUploading_eq_of_iff {e : Engine} (hWF : WFidx e)
    (hnd : e.inflight.Nodup)
    (hiff : ∀ i, i ∈ e.inflight ↔
      ∃ c ∈ e.chunks, c.index = i ∧ c.status = .uploading) :
    countUploading e = e.inflight.length := by
  have hsub :
      ((e.chunks.filter fun c => c.status = .uploading).map (·.index)).Sublist
        (e.chunks.map (·.index)) :=
    List.Sublist.map _ (List.filter_sublist _)
  have hnd2 :
      ((e.chunks.filter fun c => c.status = .uploading).map (·.index)).Nodup :=
    List.Nodup.sublist hsub hWF
  have hmem : ∀ a,
      a ∈ (e.chunks.filter fun c => c.status = .uploading).map (·.index) ↔
        a ∈ e.inflight := by
    intro a
    rw [hiff a]
    simp only [List.mem_map, List.mem_filter, decide_eq_true_eq]
    constructor
    · rintro ⟨c, ⟨hc, hst⟩, rfl⟩
      exact ⟨c, hc, rfl, hst⟩
    · rintro ⟨c, hc, rfl, hst⟩
      exact ⟨c, ⟨hc, hst⟩, rfl⟩
  have hperm := (List.perm_ext_iff_of_nodup hnd2 hnd).mpr hmem
  have hlen := hperm.length_eq
  rw [List.length_map] at hlen
  exact hlen

/-! ## Helper lemmas: the scheduler -/

theorem fillSlots_timers : ∀ (l : List Nat) (e : Engine),
    (fillSlots e l).timers = e.timers := by
  intro l
  induction l with
  | nil => intro e; rfl
  | cons i rest ih =>
      intro e
      rw [fillSlots]
      by_cases h : e.activeUploads < MAX_CONCURRENCY
      · rw [if_pos h, ih]
        rfl
      · rw [if_neg h]

theorem processQueue_timers (e : Engine) :
    (processQueue e).timers = e.timers := by
  rw [processQueue]
  by_cases hs : e.status = .uploadingE
  · rw [if_pos hs]
    by_cases hfin : pendingIdxs e = [] ∧ countUploading e = 0
    · rw [if_pos hfin]
    · rw [if_neg hfin]
      exact fillSlots_timers _ e
  · rw [if_neg hs]

theorem fillSlots_inv : ∀ (l : List Nat) (e : Engine),
    WFidx e →
    e.activeUploads = (e.inflight.length : Int) →
    e.inflight.Nodup →
    (∀ i, i ∈ e.inflight ↔ ∃ c ∈ e.chunks, c.index = i ∧ c.status = .uploading) →
    e.inflight.length ≤ 3 →
    l.Nodup →
    (∀ j ∈ l, ∃ c ∈ e.chunks, c.index = j ∧ isPendingLike c = true) →
    WFidx (fillSlots e l) ∧
    (fillSlots e l).activeUploads = ((fillSlots e l).inflight.length : Int) ∧
    (fillSlots e l).inflight.Nodup ∧
    (∀ i, i ∈ (fillSlots e l).inflight ↔
      ∃ c ∈ (fillSlots e l).chunks, c.index = i ∧ c.status = .uploading) ∧
    (fillSlots e l).inflight.length ≤ 3 := by
  intro l
  induction l with
  | nil =>
      intro e h1 h2 h3 h4 h5 _ _
      exact ⟨h1, h2, h3, h4, h5⟩
  | cons i rest ih =>
      intro e h1 h2 h3 h4 h5 hnd hpend
      rw [fillSlots]
      by_cases hlt : e.activeUploads < MAX_CONCURRENCY
      · rw [if_pos hlt]
        obtain ⟨c, hc, hci, hcp⟩ := hpend i (List.mem_cons_self _ _)
        have hfUp : ∀ c : Chunk,
            ({ c with status := CStatus.uploading } : Chunk).index = c.index :=
          fun _ => rfl
        have hnotin : i ∉ e.inflight := by
          intro hmem
          obtain ⟨c', hc', hci', hcs⟩ := (h4 i).mp hmem
          have hcc : c = c' := eq_of_index_eq h1 hc hc' (hci.trans hci'.symm)
          rw [← hcc] at hcs
          simp [isPendingLike, hcs] at hcp
        have hlen3 : e.inflight.length < 3 := by
          rw [h2, MAX_CONCURRENCY] at hlt
          omega
        have hrestnd : rest.Nodup := (List.nodup_cons.mp hnd).2
        have hinotin : i ∉ rest := (List.nodup_cons.mp hnd).1
        apply ih (dispatch e i)
        · show ((modifyAt e.chunks i _).map (·.index)).Nodup
          rw [modifyAt_map_index _ _ _ hfUp]
          exact h1
        · show e.activeUploads + 1 = ((i :: e.inflight).length : Int)
          simp only [List.length_cons]
          rw [h2]
          push_cast
          ring
        · exact List.nodup_cons.mpr ⟨hnotin, h3⟩
        · intro j
          show j ∈ i :: e.inflight ↔
            ∃ c ∈ modifyAt e.chunks i _, c.index = j ∧ c.status = .uploading
          by_cases hji : j = i
          · subst hji
            constructor
            · intro _
              exact (exists_modifyAt_eq hfUp
                (fun c => c.status = .uploading)).mpr ⟨c, hc, hci, rfl⟩
            · intro _
              exact List.mem_cons_self _ _
          · rw [exists_modifyAt_ne hfUp hji]
            rw [List.mem_cons]
            simp only [hji, false_or]
            exact h4 j
        · show (i :: e.inflight).length ≤ 3
          simp only [List.length_cons]
          omega
        · exact hrestnd
        · intro j hj
          have hji : j ≠ i := fun h => hinotin (h ▸ hj)
          show ∃ c ∈ modifyAt e.chunks i _, c.index = j ∧ isPendingLike c = true
          exact (exists_modifyAt_ne hfUp hji
            (fun c => isPendingLike c = true)).mpr (hpend j (List.mem_cons_of_mem _ hj))
      · rw [if_neg hlt]
        exact ⟨h1, h2, h3, h4, h5⟩

theorem processQueue_inv (e : Engine)
    (h1 : WFidx e)
    (h2 : e.activeUploads = (e.inflight.length : Int))
    (h3 : e.inflight.Nodup)
    (h4 : ∀ i, i ∈ e.inflight ↔ ∃ c ∈ e.chunks, c.index = i ∧ c.status = .uploading)
    (h5 : e.inflight.length ≤ 3) :
    WFidx (processQueue e) ∧
    (processQueue e).activeUploads = ((processQueue e).inflight.length : Int) ∧
    (processQueue e).inflight.Nodup ∧
    (∀ i, i ∈ (processQueue e).inflight ↔
      ∃ c ∈ (processQueue e).chunks, c.index = i ∧ c.status = .uploading) ∧
    (processQueue e).inflight.length ≤ 3 := by
  rw [processQueue]
  by_cases hs : e.status = .uploadingE
  · rw [if_pos hs]
    by_cases hfin : pendingIdxs e = [] ∧ countUploading e = 0
    · rw [if_pos hfin]
      exact ⟨h1, h2, h3, h4, h5⟩
    · rw [if_neg hfin]
      apply fillSlots_inv (pendingIdxs e) e h1 h2 h3 h4 h5
      · exact List.Nodup.sublist
          (List.Sublist.map _ (List.filter_sublist _)) h1
      · intro j hj
        rw [pendingIdxs, List.mem_map] at hj
        obtain ⟨c, hcf, rfl⟩ := hj
        rw [List.mem_filter] at hcf
        exact ⟨c, hcf.1, rfl, hcf.2⟩
  · rw [if_neg hs]
    exact ⟨h1, h2, h3, h4, h5⟩

theorem processQueue_full (e : Engine) (h : Inv e) : Inv (processQueue e) := by
  obtain ⟨h1, h2, h3, h4, h5, h6⟩ := h
  obtain ⟨g1, g2, g3, g4, g5⟩ := processQueue_inv e h1 h2 h3 h4 h5
  exact ⟨g1, g2, g3, g4, g5, (processQueue_timers e).trans h6⟩

theorem step_inv {e e' : Engine} {te : TEv} (hInv : Inv e)
    (hff : isFailureEv te.ev = false) (hstep : step e te = some e') : Inv e' := by
  obtain ⟨h1, h2, h3, h4, h5, h6⟩ := hInv
  by_cases hts : te.t < e.now
  · rw [step, if_pos hts] at hstep
    cases hstep
  · rw [step, if_neg hts] at hstep
    cases hev : te.ev with
    | successE i =>
        rw [hev, stepEv] at hstep
        by_cases hmem : i ∈ e.inflight
        · rw [if_pos hmem] at hstep
          obtain ⟨c, hc, hci, hcs⟩ := (h4 i).mp hmem
          have hfc : findChunk e.chunks i = some c := findChunk_eq_of_mem h1 hc hci
          rw [show findChunk ({ e with now := te.t } : Engine).chunks i =
                findChunk e.chunks i from rfl, hfc] at hstep
          obtain rfl := (Option.some.inj hstep).symm
          apply processQueue_full
          have hfS : ∀ c : Chunk,
              ({ c with status := CStatus.success } : Chunk).index = c.index :=
            fun _ => rfl
          have herl : (e.inflight.erase i).length = e.inflight.length - 1 :=
            List.length_erase_of_mem hmem
          have hpos : 0 < e.inflight.length :=
            List.length_pos.mpr (List.ne_nil_of_mem hmem)
          refine ⟨?_, ?_, ?_, ?_, ?_, ?_⟩
          · show ((modifyAt e.chunks i _).map (·.index)).Nodup
            rw [modifyAt_map_index _ _ _ hfS]
            exact h1
          · show e.activeUploads - 1 = ((e.inflight.erase i).length : Int)
            rw [herl]
            omega
          · exact List.Nodup.erase i h3
          · intro j
            show j ∈ e.inflight.erase i ↔
              ∃ c ∈ modifyAt e.chunks i _, c.index = j ∧ c.status = .uploading
            rw [List.Nodup.mem_erase_iff h3]
            by_cases hji : j = i
            · subst hji
              rw [exists_modifyAt_eq hfS (fun c => c.status = .uploading)]
              simp
            · rw [exists_modifyAt_ne hfS hji, ← h4 j]
              simp [hji]
          · show (e.inflight.erase i).length ≤ 3
            omega
          · exact h6
        · rw [if_neg hmem] at hstep
          cases hstep
    | failureE i =>
        rw [hev] at hff
        simp [isFailureEv] at hff
    | timerE i tf =>
        rw [hev, stepEv] at hstep
        by_cases hcond : (i, tf) ∈ e.timers ∧ tf ≤ te.t
        · exfalso
          have := hcond.1
          rw [h6] at this
          cases this
        · rw [if_neg hcond] at hstep
          cases hstep
    | pauseE =>
        rw [hev, stepEv] at hstep
        obtain rfl := (Option.some.inj hstep).symm
        exact ⟨h1, h2, h3, h4, h5, h6⟩
    | resumeE =>
        rw [hev, stepEv] at hstep
        by_cases hres : ({ e with now := te.t } : Engine).status = .paused ∨
            ({ e with now := te.t } : Engine).status = .failed
        · rw [if_pos hres] at hstep
          obtain rfl := (Option.some.inj hstep).symm
          exact processQueue_full _ ⟨h1, h2, h3, h4, h5, h6⟩
        · rw [if_neg hres] at hstep
          obtain rfl := (Option.some.inj hstep).symm
          exact ⟨h1, h2, h3, h4, h5, h6⟩

theorem run_inv : ∀ (evs : List TEv) (e s : Engine), Inv e →
    (∀ te ∈ evs, isFailureEv te.ev = false) → run e evs = some s → Inv s := by
  intro evs
  induction evs with
  | nil =>
      intro e s hInv _ hrun
      rw [run] at hrun
      exact (Option.some.inj hrun) ▸ hInv
  | cons te rest ih =>
      intro e s hInv hff hrun
      rw [run] at hrun
      cases hstep : step e te with
      | none => rw [hstep] at hrun; cases hrun
      | some e' =>
          rw [hstep] at hrun
          exact ih e' s (step_inv hInv (hff te (List.mem_cons_self _ _)) hstep)
            (fun te' h => hff te' (List.mem_cons_of_mem _ h)) hrun

theorem startEngine_inv (fs : Nat) : Inv (startEngine fs) := by
  apply processQueue_full
  refine ⟨?_, rfl, List.nodup_nil, ?_, by simp, rfl⟩
  · show ((initChunks fs).map (·.index)).Nodup
    have : (initChunks fs).map (·.index) = List.range (totalChunksOf fs) := by
      rw [initChunks, List.map_map]
      exact List.map_congr_left (fun a _ => rfl) |>.trans (List.map_id _)
    rw [this]
    exact List.nodup_range _
  · intro i
    constructor
    · intro h
      cases h
    · rintro ⟨c, hc, _, hcs⟩
      rw [initChunks, List.mem_map] at hc
      obtain ⟨j, _, rfl⟩ := hc
      cases hcs

/-! ## Claim C1: bounded concurrency -/

/-- C1 (counterexample): the double release of the concurrency slot on
failure (once in the catch branch, once in the timer callback) lets the
scheduler run 4 chunks in `UPLOADING` state at once: after the
`overCapTrace` events on a 5-chunk file, `countUploading` is 4, refuting
the claim that it never exceeds `max_concurrency = 3`. -/
theorem uploader_concurrency_exceeded_cx :
    (run (startEngine fiveChunkSize) overCapTrace).map countUploading = some 4 ∧
    ¬ (∀ (evs : List TEv) (s : Engine),
        run (startEngine fiveChunkSize) evs = some s → countUploading s ≤ 3) := by
  have h4 : (run (startEngine fiveChunkSize) overCapTrace).map countUploading =
      some 4 := by decide
  refine ⟨h4, fun hcl => ?_⟩
  cases hr : run (startEngine fiveChunkSize) overCapTrace with
  | none => rw [hr] at h4; cases h4
  | some s =>
      have hle := hcl overCapTrace s hr
      rw [hr] at h4
      have h4' : countUploading s = 4 := Option.some.inj (by simpa using h4)
      omega

/-- C1 (amended): in every execution of the client engine after `start()`
that contains no chunk failure (and hence no backoff timer), at no instant
are more than `max_concurrency = 3` chunks in `UPLOADING` state; with
failures, each fired backoff timer releases an extra slot and the bound can
be exceeded (see the counterexample, which reaches 4). -/
theorem uploader_failfree_bounded_concurrency (fs : Nat) (evs : List TEv)
    (s : Engine) (hff : ∀ te ∈ evs, isFailureEv te.ev = false)
    (hrun : run (startEngine fs) evs = some s) :
    countUploading s ≤ 3 := by
  obtain ⟨h1, h2, h3, h4, h5, h6⟩ :=
    run_inv evs (startEngine fs) s (startEngine_inv fs) hff hrun
  rw [countUploading_eq_of_iff h1 h3 h4]
  exact h5

/-- C1 (witness for `uploader_failfree_bounded_concurrency`). -/
theorem uploader_failfree_bounded_concurrency_wit :
    countUploading ((run (startEngine 1)
        [⟨10, .successE 0⟩]).getD (startEngine 1)) ≤ 3 :=
  uploader_failfree_bounded_concurrency 1 [⟨10, .successE 0⟩] _
    (by decide) (by decide)

/-! ## Claim C2: backoff schedule -/

/-- C2 (counterexample): on the first failure of chunk 0 (at t = 1000 ms,
first retry, so the claimed earliest re-dispatch is t = 3000 ms), the
scheduler's pending filter picks up the `ERROR_RETRY` chunk immediately:
the ghost log records a dispatch of chunk 0 at t = 1000 ms right after the
failure entry, refuting the claimed backoff delay. -/
theorem uploader_immediate_retry_cx :
    (run (startEngine fiveChunkSize) [⟨1000, .failureE 0⟩]).map (·.log) =
      some [.dispatchE 0 1000, .failE 0 1 1000, .dispatchE 2 0,
            .dispatchE 1 0, .dispatchE 0 0] ∧
    ¬ (∀ (evs : List TEv) (s : Engine),
        run (startEngine fiveChunkSize) evs = some s → noEarlyRetry s.log) := by
  have hlog : (run (startEngine fiveChunkSize) [⟨1000, .failureE 0⟩]).map (·.log) =
      some [.dispatchE 0 1000, .failE 0 1 1000, .dispatchE 2 0,
            .dispatchE 1 0, .dispatchE 0 0] := by decide
  refine ⟨hlog, fun hcl => ?_⟩
  cases hr : run (startEngine fiveChunkSize) [⟨1000, .failureE 0⟩] with
  | none => rw [hr] at hlog; cases hlog
  | some s =>
      have hner := hcl _ s hr
      rw [hr] at hlog
      have hlg : s.log = [.dispatchE 0 1000, .failE 0 1 1000, .dispatchE 2 0,
          .dispatchE 1 0, .dispatchE 0 0] := Option.some.inj (by simpa using hlog)
      have hco := hner [] 0 1000 [] 1 1000
        [.dispatchE 2 0, .dispatchE 1 0, .dispatchE 0 0]
        (by rw [hlg]; rfl) (by decide) (by intro u hu; cases hu)
      norm_num at hco

/-- C2 (amended): what the code guarantees about the `k`-th retry
(`k ≤ max_retries`) of a chunk failing at time `t` is only that a backoff
timer is scheduled to fire no earlier than `t + 2^k · 1000` ms — the
failure handler registers exactly that timer, and a timer event can only be
consumed at or after its scheduled fire time.  The chunk itself may be
re-dispatched before the timer fires (as early as the failure instant),
because the scheduler's pending filter also picks up `ERROR_RETRY`
chunks. -/
theorem uploader_backoff_timer_schedule :
    (∀ (e : Engine) (i t : Nat) (e' : Engine) (c : Chunk),
        step e ⟨t, .failureE i⟩ = some e' →
        findChunk e.chunks i = some c → c.attempts + 1 ≤ MAX_RETRIES →
        (i, t + 2 ^ (c.attempts + 1) * 1000) ∈ e'.timers) ∧
    (∀ (e : Engine) (i tf t : Nat) (e' : Engine),
        step e ⟨t, .timerE i tf⟩ = some e' → tf ≤ t ∧ (i, tf) ∈ e.timers) := by
  constructor
  · intro e i t e' c hstep hfc hk
    by_cases hts : t < e.now
    · rw [step, if_pos hts] at hstep
      cases hstep
    · rw [step, if_neg hts, stepEv] at hstep
      by_cases hmem : i ∈ e.inflight
      · rw [if_pos hmem] at hstep
        simp only [show findChunk ({ e with now := t } : Engine).chunks i =
            findChunk e.chunks i from rfl, hfc] at hstep
        rw [if_pos hk] at hstep
        obtain rfl := (Option.some.inj hstep).symm
        rw [processQueue_timers]
        exact List.mem_cons_self _ _
      · rw [if_neg hmem] at hstep
        cases hstep
  · intro e i tf t e' hstep
    by_cases hts : t < e.now
    · rw [step, if_pos hts] at hstep
      cases hstep
    · rw [step, if_neg hts, stepEv] at hstep
      by_cases hcond : (i, tf) ∈ ({ e with now := t } : Engine).timers ∧ tf ≤ t
      · exact ⟨hcond.2, hcond.1⟩
      · rw [if_neg hcond] at hstep
        cases hstep

/-- C2 (witness for `uploader_backoff_timer_schedule`). -/
theorem uploader_backoff_timer_schedule_wit :
    ((0 : Nat), (2005 : Nat)) ∈ engAfterFail.timers ∧
    ((2005 : Nat) ≤ 2005 ∧ ((0 : Nat), (2005 : Nat)) ∈ engAfterFail.timers) :=
  ⟨uploader_backoff_timer_schedule.1 (startEngine 1) 0 5 engAfterFail
      { index := 0, start := 0, stop := 1, status := .uploading, attempts := 0 }
      (by decide) (by decide) (by decide),
   uploader_backoff_timer_schedule.2 engAfterFail 0 2005 2005 engAfterTimer
      (by decide)⟩

end UploadModel
